import Mathlib

/-!
Verification development for the raptobo APT metadata library.

The Rust sources are shallowly embedded over `List Char` (the claims only
involve ASCII data, where Rust's byte indices and char indices coincide).
Rust `HashMap` values are modelled as association lists with
replace-on-insert semantics; the claims never depend on iteration order.
Machine integers (`u64`) are modelled as `Nat` with the explicit bound
`2 ^ 64` at the single place it matters (integer parsing, which fails on
overflow). Fallible Rust code returns `Option`; code that can panic
returns a dedicated outcome type with an explicit panic constructor.
-/

/-- Convert a string literal to the `List Char` the embedding works on. -/
def s2l (s : String) : List Char := s.data

/-- Rust `char::is_whitespace`, restricted to the ASCII range that the
claims exercise. -/
def isWhite (c : Char) : Bool :=
  c = ' ' || c = '\t' || c = '\n' || c = '\x0d' || c = '\x0b' || c = '\x0c'

/-- Drop leading whitespace, as in Rust `str::trim_start`. -/
def ltrim (l : List Char) : List Char := l.dropWhile isWhite

/-- Drop trailing whitespace, as in Rust `str::trim_end`. -/
def rtrim (l : List Char) : List Char := (l.reverse.dropWhile isWhite).reverse

/-- Rust `str::trim`. -/
def trim (l : List Char) : List Char := rtrim (ltrim l)

/-- Rust `str::split_once` with a single-character pattern: split at the
first occurrence of `sep`, or `none` when `sep` does not occur. -/
def splitOnce (sep : Char) : List Char → Option (List Char × List Char)
  | [] => none
  | c :: rest =>
    if c = sep then some ([], rest)
    else (splitOnce sep rest).map (fun p => (c :: p.1, p.2))

/-- Rust `str::split` with a single-character pattern; empty pieces are
kept, and the empty string yields one empty piece. -/
def splitChar (sep : Char) : List Char → List (List Char)
  | [] => [[]]
  | c :: rest =>
    if c = sep then [] :: splitChar sep rest
    else
      match splitChar sep rest with
      | [] => [[c]]
      | p :: ps => (c :: p) :: ps

/-- Rust `str::parse::<u64>`: an optional leading `+`, then one or more
ASCII digits; fails on anything else and on overflow past `2 ^ 64 - 1`. -/
def parseU64 (l : List Char) : Option Nat :=
  let d := match l with
    | '+' :: rest => rest
    | other => other
  if d.isEmpty then none
  else if d.all Char.isDigit then
    let n := d.foldl (fun acc c => acc * 10 + (c.toNat - 48)) 0
    if n < 2 ^ 64 then some n else none
  else none

/-- Association-list insert with Rust `HashMap::insert` semantics: replace
the binding when the key is already present, append otherwise. -/
def alInsert {α : Type} (k : List Char) (v : α) :
    List (List Char × α) → List (List Char × α)
  | [] => [(k, v)]
  | p :: rest => if p.1 = k then (k, v) :: rest else p :: alInsert k v rest

/-- Association-list lookup, Rust `HashMap::get`. -/
def alLookup {α : Type} (k : List Char) : List (List Char × α) → Option α
  | [] => none
  | p :: rest => if p.1 = k then some p.2 else alLookup k rest

/-- A stanza: field name mapped to the raw value lines, as produced by
`parse_metadata` in `src/utils.rs`. -/
abbrev Stanza := List (List Char × List (List Char))

/-- The loop state of `parse_metadata`: finished stanzas, the stanza under
construction, and the pending field name and value lines. -/
structure PMState where
  data : List Stanza
  stanza : Stanza
  key : List Char
  value : List (List Char)
deriving DecidableEq

/-- One iteration of the `parse_metadata` loop in `src/utils.rs`
(lines 78-110): a blank line pushes a non-empty stanza, a line starting
with a space extends the pending value, and any other line first flushes a
non-empty pending value into the stanza and then splits itself on the
first colon. -/
def pmStep (st : PMState) (line : List Char) : PMState :=
  if (trim line).isEmpty then
    if st.stanza.isEmpty then { st with stanza := [] }
    else { st with data := st.data ++ [st.stanza], stanza := [] }
  else if line.head? = some ' ' then
    { st with value := st.value ++ [line] }
  else
    let st1 :=
      if st.value.isEmpty then st
      else { st with stanza := alInsert st.key st.value st.stanza, value := [] }
    match splitOnce ':' line with
    | none => { st1 with key := [] }
    | some kv => { st1 with key := kv.1, value := st1.value ++ [kv.2] }

/-- `parse_metadata` from `src/utils.rs`: fold the line rules over the
document and return the accumulated stanzas (the Rust function always
returns `Ok`, so the `Result` wrapper is omitted). -/
def parse_metadata (content : List (List Char)) : List Stanza :=
  (content.foldl pmStep ⟨[], [], [], []⟩).data

/-- Outcome of a field accessor: the indexing `&value[0]` can panic, the
key can be absent, or a value is produced. -/
inductive VRes (α : Type) where
  | panicked
  | missing
  | ok (a : α)
deriving DecidableEq

/-- `stanza_value` from `src/utils.rs`: first line of the field, trimmed;
the Rust code indexes `value[0]` without a bounds check. -/
def stanza_value (k : List Char) (s : Stanza) : VRes (List Char) :=
  match alLookup k s with
  | none => .missing
  | some [] => .panicked
  | some (x :: _) => .ok (trim x)

/-- The tokenisation shared by `stanza_list` and `stanza_files`: split on
ASCII spaces, trim each piece, drop empty pieces. -/
def spaceTokens (l : List Char) : List (List Char) :=
  ((splitChar ' ' l).map trim).filter (fun v => 0 < v.length)

/-- `stanza_list` from `src/utils.rs`: space-separated tokens of the first
line of the field; indexes `values[0]` without a bounds check. -/
def stanza_list (k : List Char) (s : Stanza) : VRes (List (List Char)) :=
  match alLookup k s with
  | none => .missing
  | some [] => .panicked
  | some (x :: _) => .ok (spaceTokens x)

/-- `stanza_lines` from `src/utils.rs`: all value lines trimmed,
optionally dropping the empty ones; `none` when the key is absent. -/
def stanza_lines (k : List Char) (s : Stanza) (filterEmpty : Bool) :
    Option (List (List Char)) :=
  (alLookup k s).map (fun vs =>
    let ts := vs.map trim
    if filterEmpty then ts.filter (fun l => 0 < l.length) else ts)

/-- `VersionBlock` from `src/package.rs`: a prefix (called `prefix` in the
Rust struct) and a number. -/
structure VersionBlock where
  pfx : List Char
  number : Nat
deriving DecidableEq

/-- The loop state of `VersionBlock::from`. -/
structure VBState where
  start : Nat
  sd : Nat
  digit : Bool
  blocks : List VersionBlock
deriving DecidableEq

/-- Rust slice `version[a..b]` over char positions. -/
def sliceCh (a b : Nat) (l : List Char) : List Char := (l.drop a).take (b - a)

/-- One iteration of the loop of `VersionBlock::from` (`src/package.rs`
lines 570-595): a digit sets `digit` and moves `start_digit` to the
current index; a non-digit after a digit flushes a block whose number
falls back to 0 when the parse fails. -/
def vbStep (version : List Char) (st : VBState) (ic : Nat × Char) : VBState :=
  if ic.2.isDigit then { st with digit := true, sd := ic.1 }
  else if st.digit then
    { start := ic.1
      sd := st.sd
      digit := false
      blocks := st.blocks ++
        [⟨sliceCh st.start st.sd version,
          (parseU64 (sliceCh st.sd ic.1 version)).getD 0⟩] }
  else st

/-- `VersionBlock::from` (`src/package.rs` lines 559-616): run the loop
over the enumerated characters, then push the final block, moving
`start_digit` to the end when it lags behind `start`. -/
def vbFrom (version : List Char) : List VersionBlock :=
  if version.length = 0 then []
  else
    let st := version.enum.foldl (vbStep version) ⟨0, 0, false, []⟩
    let len := version.length
    let sd := if st.sd < st.start then len else st.sd
    st.blocks ++
      [⟨sliceCh st.start sd version, (parseU64 (sliceCh sd len version)).getD 0⟩]

/-- Does the Rust expression `prefix.chars().next().unwrap() == '~'` hold?
Only ever asked of a non-empty prefix. -/
def startsTilde : List Char → Bool
  | '~' :: _ => true
  | _ => false

/-- The character-by-character loop of `VersionBlock::partial_cmp`
(`src/package.rs` lines 641-653): first differing character decides, with
`~` below everything; exhaustion falls through to comparing lengths. -/
def pfxCmp : List Char → List Char → Ordering
  | [], [] => .eq
  | [], _ :: _ => .lt
  | _ :: _, [] => .gt
  | a :: as', b :: bs' =>
    if a = b then pfxCmp as' bs'
    else if a = '~' then .lt
    else if b = '~' then .gt
    else compare a b

/-- `VersionBlock::partial_cmp` (`src/package.rs` lines 619-655); the Rust
code always returns `Some`, so the result is a plain `Ordering`. -/
def vbCmp (x y : VersionBlock) : Ordering :=
  if (x.pfx.isEmpty && y.pfx.isEmpty) || x.pfx = y.pfx then
    compare x.number y.number
  else if x.pfx.isEmpty then
    if startsTilde y.pfx then .gt else .lt
  else if y.pfx.isEmpty then
    if startsTilde x.pfx then .lt else .gt
  else pfxCmp x.pfx y.pfx

/-- Right-pad a block list with empty blocks (`VersionBlock::new()`) to
length `n`, as the `chain(repeat(...)).take(len)` in `Version::partial_cmp`
does. -/
def padBlocks (n : Nat) (l : List VersionBlock) : List VersionBlock :=
  l ++ List.replicate (n - l.length) ⟨[], 0⟩

/-- The block-by-block loop of `Version::partial_cmp`: first non-equal
block decides. Called on two lists of the same length. -/
def cmpListVB : List VersionBlock → List VersionBlock → Ordering
  | [], _ => .eq
  | x :: xs, [] =>
    match vbCmp x ⟨[], 0⟩ with
    | .eq => cmpListVB xs []
    | o => o
  | x :: xs, y :: ys =>
    match vbCmp x y with
    | .eq => cmpListVB xs ys
    | o => o

/-- `Version::partial_cmp` (`src/package.rs` lines 670-693): decompose both
strings into blocks, pad to the longer length, compare block by block.
The Rust `panic!` branch is unreachable because the block comparison
always returns `Some`. -/
def vCmp (s o : List Char) : Ordering :=
  let sl := vbFrom s
  let ol := vbFrom o
  let len := max sl.length ol.length
  cmpListVB (padBlocks len sl) (padBlocks len ol)

/-- `PackageVersion` from `src/package.rs`; the `Version` wrapper is
inlined as the raw string it holds. -/
structure PackageVersion where
  epoch : Nat
  upstream_version : List Char
  debian_revision : List Char
deriving DecidableEq

/-- The epoch-free part of `PackageVersion::new`: split the remainder on
the first `-` into upstream version and Debian revision. -/
def pvTail (ep : Nat) (tail : List Char) : PackageVersion :=
  match splitOnce '-' tail with
  | some vr => ⟨ep, vr.1, vr.2⟩
  | none => ⟨ep, tail, []⟩

/-- `PackageVersion::new` (`src/package.rs` lines 478-501): split on the
first `:`; the left side must parse as a `u64` epoch. -/
def pvNew (version : List Char) : Option PackageVersion :=
  match splitOnce ':' version with
  | some er =>
    match parseU64 er.1 with
    | none => none
    | some ep => some (pvTail ep er.2)
  | none => some (pvTail 0 version)

/-- `PackageVersion::partial_cmp` (`src/package.rs` lines 533-543): epoch
first; when the upstream version *strings* differ, the upstream block
comparison decides (even when it reports equality); only otherwise is the
revision consulted. -/
def pvCmp (a b : PackageVersion) : Ordering :=
  if a.epoch ≠ b.epoch then compare a.epoch b.epoch
  else if a.upstream_version ≠ b.upstream_version then
    vCmp a.upstream_version b.upstream_version
  else vCmp a.debian_revision b.debian_revision

/-- `PackageVersionRelation` from `src/package.rs`. -/
inductive PackageVersionRelation where
  | lt
  | lte
  | eq
  | gte
  | gt
deriving DecidableEq

/-- `PackageVersionRelation::new` (`src/package.rs` lines 319-336). -/
def pvrNew (rel : List Char) : Option PackageVersionRelation :=
  if rel = s2l ("<<") then some .lt
  else if rel = s2l ("<=") then some .lte
  else if rel = s2l ("=") then some .eq
  else if rel = s2l (">=") then some .gte
  else if rel = s2l (">>") then some .gt
  else none

/-- `PackageRelation` from `src/package.rs`; the `alternative` box is the
recursive occurrence. -/
inductive PackageRelation where
  | mk (package : List Char) (relation : PackageVersionRelation)
      (version : Option PackageVersion) (alternative : Option PackageRelation)

/-- Outcome of `PackageRelation::new`: the slice `&version[1..len-1]`
panics when the version annotation is shorter than two characters. -/
inductive RelRes where
  | rpanic
  | rerr
  | rok (r : PackageRelation)

/-- The non-recursive tail of `PackageRelation::new` (`src/package.rs`
lines 403-433). `whole` is the local variable `relation` (the full trimmed
term), `r` the part before any `|`: when `r` holds no space the Rust code
stores `relation` — the whole term — as the package name. With a space,
the version annotation is sliced as `&version[1..version.len()-1]`, which
panics for annotations shorter than two characters. -/
def prAtom (whole r : List Char) (alt : Option PackageRelation) : RelRes :=
  match splitOnce ' ' r with
  | none => .rok (.mk whole .eq none alt)
  | some nv =>
    let name := trim nv.1
    let ver := trim nv.2
    if ver.length < 2 then .rpanic
    else
      let inner := (ver.drop 1).take (ver.length - 2)
      match splitOnce ' ' inner with
      | none => .rerr
      | some rv =>
        match pvrNew (trim rv.1) with
        | none => .rerr
        | some rel =>
          match pvNew (trim rv.2) with
          | none => .rerr
          | some v => .rok (.mk name rel (some v) alt)

/-- `PackageRelation::new` (`src/package.rs` lines 395-433), with an
explicit fuel argument standing in for the well-founded recursion on the
tail after `|` (each recursive call is on a strictly shorter string, so
`length + 1` fuel never runs out). -/
def prNewF : Nat → List Char → RelRes
  | 0, _ => .rerr
  | Nat.succ fuel, s =>
    let rt := trim s
    match splitOnce '|' rt with
    | some ra =>
      match prNewF fuel (trim ra.2) with
      | .rpanic => .rpanic
      | .rerr => .rerr
      | .rok alt => prAtom rt (trim ra.1) (some alt)
    | none => prAtom rt rt none

/-- `PackageRelation::new` at adequate fuel. -/
def prNew (s : List Char) : RelRes := prNewF (s.length + 1) s

/-- `PackageRelation::parse` (`src/package.rs` lines 367-393) applied to a
field value: every comma piece is parsed, the `filter` keeps the `Err`
results and drops the `Ok` ones, and the following `unwrap` panics on any
kept `Err`. Hence: `none` (panic) as soon as one piece fails to parse, and
`some none` (field reported absent, all parses discarded) when every piece
parses. A successfully parsed list is never returned. -/
def relListOutcome (value : List Char) : Option (Option (List PackageRelation)) :=
  let results := ((splitChar ',' value).map trim).map prNew
  if results.all (fun r => match r with | .rok _ => true | _ => false) then
    some none
  else none

/-- `PackageListItem` from `src/package.rs`. -/
structure PackageListItem where
  name : List Char
  type_name : List Char
  sect : List Char
  prio : List Char
deriving DecidableEq

/-- One line of `PackageListItem::parse` (`src/package.rs` lines 211-219):
split on spaces and index parts 0, 1, 3 and 4 with no length check;
`none` models the out-of-range panic. -/
def pliLine (l : List Char) : Option PackageListItem :=
  let parts := splitChar ' ' l
  match parts.get? 0, parts.get? 1, parts.get? 3, parts.get? 4 with
  | some a, some b, some c, some d => some ⟨trim a, trim b, trim c, trim d⟩
  | _, _, _, _ => none

/-- Outcome of `PackageListItem::parse`. -/
inductive PliRes where
  | ppanic
  | pnone
  | psome (items : List PackageListItem)
deriving DecidableEq

/-- `PackageListItem::parse` (`src/package.rs` lines 203-227): absent key
(or an empty result) yields `None`; any line with fewer than five
space-separated parts panics. -/
def pliParse (k : List Char) (s : Stanza) : PliRes :=
  match stanza_lines k s true with
  | none => .pnone
  | some lines =>
    let parsed := lines.map pliLine
    if parsed.all Option.isSome then
      let items := parsed.filterMap id
      if items.isEmpty then .pnone else .psome items
    else .ppanic

/-- `File` from `src/utils.rs`. -/
structure RFile where
  hash : List Char
  size : Nat
  path : List Char
deriving DecidableEq

/-- The per-line loop of `stanza_files` (`src/utils.rs` lines 238-261):
each line must yield exactly three space tokens with the middle one a
base-10 `u64`; the first failure aborts with an error. -/
def filesFromLines : List (List Char) → Option (List RFile)
  | [] => some []
  | l :: rest =>
    match spaceTokens l with
    | [a, b, c] =>
      match parseU64 b with
      | none => none
      | some sz => (filesFromLines rest).map (fun fs => (⟨a, sz, c⟩ : RFile) :: fs)
    | _ => none

/-- `stanza_files` (`src/utils.rs` lines 230-264): the trimmed non-empty
lines of the field, each parsed as `hash size path`; `none` covers both a
missing key and a malformed line. -/
def stanza_files (k : List Char) (s : Stanza) : Option (List RFile) :=
  match stanza_lines k s true with
  | none => none
  | some lines => filesFromLines lines

/-- Is every space token of the line shaped `hash size path` with a
parseable size? The success condition of `stanza_files` for one line. -/
def goodFileLine (l : List Char) : Bool :=
  match spaceTokens l with
  | [_, b, _] => (parseU64 b).isSome
  | _ => false

/-- `FileHash` from `src/repository.rs` (the `SHA512` variant is unused by
`process_files` and omitted). -/
inductive FileHash where
  | md5 (h : List Char)
  | sha1 (h : List Char)
  | sha256 (h : List Char)
deriving DecidableEq

/-- `FileMetadata` from `src/repository.rs`. -/
structure FileMetadata where
  path : List Char
  size : Nat
  hashes : List FileHash
deriving DecidableEq

/-- The file table `RepositoryData::files`. -/
abbrev FMap := List (List Char × FileMetadata)

/-- The first loop of `Repository::process_files` (`src/repository.rs`
lines 184-192): insert an entry for every md5sum file. -/
def pfInsertMd5 (m : FMap) (f : RFile) : FMap :=
  alInsert f.path ⟨f.path, f.size, [FileHash.md5 f.hash]⟩ m

/-- The second and third loops of `process_files` (lines 194-202): look the
path up with `get_mut(..).unwrap()` — `none` models the panic on a path
that is not already present — and push the new hash. -/
def pfAugment (tag : List Char → FileHash) (om : Option FMap) (f : RFile) :
    Option FMap :=
  om.bind (fun m =>
    match alLookup f.path m with
    | none => none
    | some fm => some (alInsert f.path ⟨fm.path, fm.size, fm.hashes ++ [tag f.hash]⟩ m))

/-- The file-table part of `Repository::process_files` (`src/repository.rs`
lines 178-202): md5sum entries establish the map, then the sha1 and sha256
lists augment it, unwrapping the lookup of each path. -/
def processFiles (md5 sha1 sha256 : List RFile) : Option FMap :=
  let m1 := md5.foldl pfInsertMd5 []
  let m2 := sha1.foldl (pfAugment FileHash.sha1) (some m1)
  sha256.foldl (pfAugment FileHash.sha256) m2

/-- Every value vector of the stanza is non-empty. -/
def stanzaInv (s : Stanza) : Prop := ∀ kv ∈ s, kv.2 ≠ ([] : List (List Char))

/-- Inserting a non-empty value preserves the stanza invariant. -/
theorem stanzaInv_alInsert {k : List Char} {v : List (List Char)} {s : Stanza}
    (hv : v ≠ []) (hs : stanzaInv s) : stanzaInv (alInsert k v s) := by
  induction s with
  | nil =>
    intro kv hkv
    simp only [alInsert, List.mem_singleton] at hkv
    subst hkv
    exact hv
  | cons p rest ih =>
    intro kv hkv
    by_cases hp : p.1 = k
    · rw [alInsert, if_pos hp] at hkv
      rcases List.mem_cons.mp hkv with h | h
      · subst h; exact hv
      · exact hs kv (List.mem_cons_of_mem _ h)
    · rw [alInsert, if_neg hp] at hkv
      rcases List.mem_cons.mp hkv with h | h
      · rw [h]; exact hs p (List.mem_cons_self _ _)
      · exact ih (fun q hq => hs q (List.mem_cons_of_mem _ hq)) kv h

/-- Invariant of the `parse_metadata` loop: all finished stanzas and the
stanza under construction only hold non-empty value vectors. -/
def pmInv (st : PMState) : Prop :=
  (∀ s ∈ st.data, stanzaInv s) ∧ stanzaInv st.stanza

/-- One `parse_metadata` step preserves the invariant: a value vector is
only ever inserted when it is non-empty. -/
theorem pmStep_inv {st : PMState} (line : List Char) (h : pmInv st) :
    pmInv (pmStep st line) := by
  obtain ⟨hdata, hstanza⟩ := h
  unfold pmStep
  split
  · split
    · exact ⟨hdata, fun kv hkv => absurd hkv (List.not_mem_nil kv)⟩
    · refine ⟨?_, ?_⟩
      · intro s hs
        rcases List.mem_append.mp hs with h | h
        · exact hdata s h
        · rw [List.mem_singleton.mp h]; exact hstanza
      · intro kv hkv; exact absurd hkv (List.not_mem_nil kv)
  · split
    · exact ⟨hdata, hstanza⟩
    · have hst1 : pmInv (if st.value.isEmpty then st
          else { st with stanza := alInsert st.key st.value st.stanza, value := [] }) := by
        by_cases hv : st.value.isEmpty
        · rw [if_pos hv]; exact ⟨hdata, hstanza⟩
        · rw [if_neg hv]
          refine ⟨hdata, stanzaInv_alInsert (fun hveq => ?_) hstanza⟩
          rw [hveq] at hv
          exact hv rfl
      dsimp only
      split
      · exact ⟨hst1.1, hst1.2⟩
      · exact ⟨hst1.1, hst1.2⟩

/-- The invariant is preserved along the whole fold of `parse_metadata`. -/
theorem pmFold_inv (lines : List (List Char)) (st : PMState) (h : pmInv st) :
    pmInv (lines.foldl pmStep st) := by
  induction lines generalizing st with
  | nil => exact h
  | cons l rest ih => exact ih _ (pmStep_inv l h)

/-- A successful association-list lookup names an actual member. -/
theorem alLookup_mem {α : Type} {k : List Char} {s : List (List Char × α)} {v : α}
    (h : alLookup k s = some v) : (k, v) ∈ s := by
  induction s with
  | nil => simp [alLookup] at h
  | cons p rest ih =>
    by_cases hp : p.1 = k
    · rw [alLookup, if_pos hp] at h
      have hv : p.2 = v := Option.some.inj h
      have : (k, v) = p := by
        rcases p with ⟨p1, p2⟩
        simp only at hp hv
        rw [hp, hv]
      rw [this]
      exact List.mem_cons_self _ _
    · rw [alLookup, if_neg hp] at h
      exact List.mem_cons_of_mem _ (ih h)

/-- C10: every stanza the lexer `parse_metadata` produces maps each field
name to a non-empty vector of value lines, so the single-value accessor
`stanza_value` and the list accessor `stanza_list`, which read element 0
of that vector without a bounds check, can never hit the empty-vector
panic on a lexer-produced stanza. -/
theorem lexer_stanzas_never_panic_accessors (content : List (List Char))
    (st : Stanza) (hst : st ∈ parse_metadata content) (k : List Char) :
    stanza_value k st ≠ VRes.panicked ∧ stanza_list k st ≠ VRes.panicked := by
  have hinit : pmInv ⟨[], [], [], []⟩ :=
    ⟨fun s hs => absurd hs (List.not_mem_nil s),
     fun kv hkv => absurd hkv (List.not_mem_nil kv)⟩
  have hinv := pmFold_inv content ⟨[], [], [], []⟩ hinit
  have hstinv : stanzaInv st := hinv.1 st hst
  constructor
  · unfold stanza_value
    cases hlk : alLookup k st with
    | none => simp
    | some v =>
      cases v with
      | nil => exact absurd rfl (hstinv (k, []) (alLookup_mem hlk))
      | cons x xs => simp
  · unfold stanza_list
    cases hlk : alLookup k st with
    | none => simp
    | some v =>
      cases v with
      | nil => exact absurd rfl (hstinv (k, []) (alLookup_mem hlk))
      | cons x xs => simp

/-- Witness for C10 at a concrete document: the stanza the lexer produces
for `A: v / B: w / <blank>` triggers neither accessor panic. -/
theorem lexer_stanzas_never_panic_accessors_witness :
    [(s2l ("A"), [s2l (" v")])] ∈
      parse_metadata [s2l ("A: v"), s2l ("B: w"), s2l ("")] ∧
    (stanza_value (s2l ("A")) [(s2l ("A"), [s2l (" v")])] ≠ VRes.panicked ∧
     stanza_list (s2l ("A")) [(s2l ("A"), [s2l (" v")])] ≠ VRes.panicked) :=
  ⟨by decide,
   lexer_stanzas_never_panic_accessors
     [s2l ("A: v"), s2l ("B: w"), s2l ("")]
     [(s2l ("A"), [s2l (" v")])] (by decide) (s2l ("A"))⟩

/-- C1: evaluating the lexer on the five-line document of the claim. The
pending field is never flushed into the stanza at a blank line or at end
of input, so the result is a single stanza holding only `Field-A`:
`Field-B` is attributed to a following stanza that is never emitted and
`Field-C` is lost entirely, instead of the two claimed stanzas. -/
theorem lexer_loses_pending_field_at_flush :
    parse_metadata
      [s2l ("Field-A: v1"), s2l (" continuation"), s2l ("Field-B: v2"),
       s2l (""), s2l ("Field-C: v3")] =
      [[(s2l ("Field-A"), [s2l (" v1"), s2l (" continuation")])]] ∧
    (parse_metadata
      [s2l ("Field-A: v1"), s2l (" continuation"), s2l ("Field-B: v2"),
       s2l (""), s2l ("Field-C: v3")]).length = 1 := by
  exact ⟨by decide, by decide⟩

/-- C2: evaluating block decomposition on the version string `12`. The
loop moves `start_digit` to every digit rather than to the first digit of
a run, so all but the last digit of the run land in the prefix: the result
is the block `(prefix = 1, number = 2)`, not the claimed
`(prefix = empty, number = 12)`. -/
theorem block_decomposition_splits_digit_runs :
    vbFrom (s2l ("12")) = [⟨s2l ("1"), 2⟩] ∧
    vbFrom (s2l ("12")) ≠ [⟨[], 12⟩] := by
  exact ⟨by decide, by decide⟩

/-- C3: the version comparison is not a total order. The well-formed
versions `1a-2`, `1a0-1`, `1a-1` violate transitivity of less-or-equal:
the upstream strings `1a` and `1a0` decompose to identical block lists, so
`1a-2` compares equal to `1a0-1` and `1a0-1` compares equal to `1a-1`
(the revision is never consulted when the upstream strings differ), yet
`1a-2` compares strictly greater than `1a-1`. -/
theorem version_cmp_not_transitive :
    pvNew (s2l ("1a-2")) = some ⟨0, s2l ("1a"), s2l ("2")⟩ ∧
    pvNew (s2l ("1a0-1")) = some ⟨0, s2l ("1a0"), s2l ("1")⟩ ∧
    pvNew (s2l ("1a-1")) = some ⟨0, s2l ("1a"), s2l ("1")⟩ ∧
    pvCmp ⟨0, s2l ("1a"), s2l ("2")⟩ ⟨0, s2l ("1a0"), s2l ("1")⟩ = Ordering.eq ∧
    pvCmp ⟨0, s2l ("1a0"), s2l ("1")⟩ ⟨0, s2l ("1a"), s2l ("1")⟩ = Ordering.eq ∧
    pvCmp ⟨0, s2l ("1a"), s2l ("2")⟩ ⟨0, s2l ("1a"), s2l ("1")⟩ = Ordering.gt := by
  refine ⟨by decide, by decide, by decide, by decide, by decide, by decide⟩

/-- C4: the tilde rule fails. For the non-empty version `a`, prepending a
tilde yields a version that compares *equal* (digit-free strings all
decompose to the single block `(empty, 0)`); likewise `a` compares equal
to `ab` instead of strictly less. For `~1`, prepending a tilde compares
strictly *greater* (the prefix loop falls through to a plain length
comparison instead of treating the longer prefix's `~` as smaller). -/
theorem tilde_rule_violations :
    pvNew (s2l ("~a")) = some ⟨0, s2l ("~a"), []⟩ ∧
    pvNew (s2l ("a")) = some ⟨0, s2l ("a"), []⟩ ∧
    pvCmp ⟨0, s2l ("~a"), []⟩ ⟨0, s2l ("a"), []⟩ = Ordering.eq ∧
    pvCmp ⟨0, s2l ("a"), []⟩ ⟨0, s2l ("ab"), []⟩ = Ordering.eq ∧
    vCmp (s2l ("~~1")) (s2l ("~1")) = Ordering.gt := by
  refine ⟨by decide, by decide, by decide, by decide, by decide⟩

/-- C5: evaluating the relation parser on `a | b | c`. The chain is
right-associative and the tail atoms carry no version constraint, but the
head node's package name is the *entire* term `a | b | c` (the Rust code
stores the local `relation` instead of the atom `r` before the bar), and
likewise for `libssl3 | libssl1.1` — not the claimed atom name `a`. -/
theorem alternative_chain_head_name :
    prNew (s2l ("a | b | c")) =
      .rok (.mk (s2l ("a | b | c")) .eq none
        (some (.mk (s2l ("b | c")) .eq none
          (some (.mk (s2l ("c")) .eq none none))))) ∧
    prNew (s2l ("libssl3 | libssl1.1")) =
      .rok (.mk (s2l ("libssl3 | libssl1.1")) .eq none
        (some (.mk (s2l ("libssl1.1")) .eq none none))) := by
  exact ⟨rfl, rfl⟩

/-- C6: evaluating the relation-list parser. On a fully parseable Depends
value every successfully parsed relation is *dropped* (the filter keeps
`Err` and discards `Ok`), so the field is reported absent; on a value with
one malformed relation the subsequent `unwrap` panics. The claim's
log-and-drop behaviour never happens. -/
theorem relation_list_filter_inverted :
    relListOutcome (s2l ("libc6 (>= 2.31), libssl3 | libssl1.1")) = some none ∧
    relListOutcome (s2l ("libc6 (bad)")) = none := by
  exact ⟨rfl, rfl⟩

/-- C9: evaluating `PackageListItem::parse` on a three-token line. The
code indexes parts 3 and 4 of the split without a length check, so the
line panics (out-of-range indexing) instead of being rejected with a
`MalformedPackageList` error. -/
theorem package_list_line_panics :
    pliParse (s2l ("Package-List"))
      [(s2l ("Package-List"), [s2l (" name deb sec")])] = PliRes.ppanic := by
  decide

/-- Membership survives `dropWhile`. -/
theorem mem_of_mem_dropWhile {α : Type} {p : α → Bool} {x : α} :
    ∀ {l : List α}, x ∈ l.dropWhile p → x ∈ l := by
  intro l
  induction l with
  | nil => intro h; exact h
  | cons a rest ih =>
    intro h
    rw [List.dropWhile_cons] at h
    by_cases hp : p a = true
    · rw [if_pos hp] at h
      exact List.mem_cons_of_mem _ (ih h)
    · rw [if_neg hp] at h
      exact h

/-- Membership survives trimming. -/
theorem mem_of_mem_trim {x : Char} {l : List Char} (h : x ∈ trim l) : x ∈ l := by
  unfold trim rtrim ltrim at h
  rw [List.mem_reverse] at h
  have h1 := mem_of_mem_dropWhile h
  rw [List.mem_reverse] at h1
  exact mem_of_mem_dropWhile h1

/-- No piece produced by `splitChar` contains the separator. -/
theorem splitChar_no_sep (sep : Char) :
    ∀ (l : List Char), ∀ t ∈ splitChar sep l, sep ∉ t := by
  intro l
  induction l with
  | nil =>
    intro t ht
    rw [splitChar, List.mem_singleton] at ht
    rw [ht]
    exact List.not_mem_nil sep
  | cons c rest ih =>
    intro t ht
    by_cases hc : c = sep
    · rw [splitChar, if_pos hc] at ht
      rcases List.mem_cons.mp ht with h | h
      · rw [h]; exact List.not_mem_nil sep
      · exact ih t h
    · rw [splitChar, if_neg hc] at ht
      cases hs : splitChar sep rest with
      | nil => exact absurd hs (by
          cases rest with
          | nil => rw [splitChar]; exact fun h => List.cons_ne_nil _ _ h
          | cons d ds =>
            rw [splitChar]
            by_cases hd : d = sep
            · rw [if_pos hd]; exact fun h => List.cons_ne_nil _ _ h
            · rw [if_neg hd]
              cases splitChar sep ds with
              | nil => exact fun h => List.cons_ne_nil _ _ h
              | cons p ps => exact fun h => List.cons_ne_nil _ _ h)
      | cons p ps =>
        rw [hs] at ht
        rcases List.mem_cons.mp ht with h | h
        · rw [h]
          intro hmem
          rcases List.mem_cons.mp hmem with h' | h'
          · exact hc h'.symm
          · exact ih p (hs ▸ List.mem_cons_self p ps) h'
        · exact ih t (hs ▸ List.mem_cons_of_mem p h)

/-- No token of `spaceTokens` contains a space. -/
theorem spaceTokens_no_space (l : List Char) : ∀ t ∈ spaceTokens l, ' ' ∉ t := by
  intro t ht hsp
  unfold spaceTokens at ht
  have ht1 := List.mem_of_mem_filter ht
  rcases List.mem_map.mp ht1 with ⟨u, hu, hut⟩
  exact splitChar_no_sep ' ' l u hu (mem_of_mem_trim (hut ▸ hsp))

/-- `filesFromLines` succeeds exactly when every line has the
`hash size path` shape with a parseable size. -/
theorem filesFromLines_isSome_iff (lines : List (List Char)) :
    (filesFromLines lines).isSome = true ↔
      ∀ l ∈ lines, goodFileLine l = true := by
  induction lines with
  | nil => simp [filesFromLines]
  | cons l rest ih =>
    rw [filesFromLines, List.forall_mem_cons]
    cases hts : spaceTokens l with
    | nil => simp [goodFileLine, hts]
    | cons a ts =>
      cases ts with
      | nil => simp [goodFileLine, hts]
      | cons b ts2 =>
        cases ts2 with
        | nil => simp [goodFileLine, hts]
        | cons c ts3 =>
          cases ts3 with
          | nil =>
            cases hu : parseU64 b with
            | none => simp [goodFileLine, hts, hu]
            | some sz => simp [goodFileLine, hts, hu, ih]
          | cons d ts4 => simp [goodFileLine, hts]

/-- Every file produced by `filesFromLines` has a space-free path (the
path is one token of a split on spaces). -/
theorem filesFromLines_path_no_space (lines : List (List Char)) :
    ∀ fs, filesFromLines lines = some fs → ∀ f ∈ fs, ' ' ∉ f.path := by
  induction lines with
  | nil =>
    intro fs h f hf
    rw [filesFromLines] at h
    rw [← Option.some.inj h] at hf
    exact absurd hf (List.not_mem_nil f)
  | cons l rest ih =>
    intro fs h f hf
    rw [filesFromLines] at h
    cases hts : spaceTokens l with
    | nil => rw [hts] at h; exact absurd h (by simp)
    | cons a ts =>
      cases ts with
      | nil => rw [hts] at h; exact absurd h (by simp)
      | cons b ts2 =>
        cases ts2 with
        | nil => rw [hts] at h; exact absurd h (by simp)
        | cons c ts3 =>
          cases ts3 with
          | nil =>
            cases hu : parseU64 b with
            | none => rw [hts] at h; simp [hu] at h
            | some sz =>
              rw [hts] at h
              simp only [hu, Option.map_eq_some'] at h
              obtain ⟨fs', hfs', hfs⟩ := h
              rw [← hfs] at hf
              rcases List.mem_cons.mp hf with hh | hh
              · rw [hh]
                exact spaceTokens_no_space l c
                  (hts ▸ List.mem_cons_of_mem a
                    (List.mem_cons_of_mem b (List.mem_cons_self c [])))
              · exact ih fs' hfs' f hh
          | cons d ts4 => rw [hts] at h; exact absurd h (by simp)

/-- C7 counterexample: the accessor can return a File whose path contains
a whitespace character. The field line `h 1 p<TAB>q` splits on *spaces*
into exactly three tokens, so `stanza_files` succeeds and the returned
path `p<TAB>q` contains the whitespace character TAB, contradicting the
claim that every returned path is whitespace-free. -/
theorem files_path_can_contain_tab :
    stanza_files (s2l ("Files")) [(s2l ("Files"), [s2l ("h 1 p\tq")])] =
      some [⟨s2l ("h"), 1, s2l ("p\tq")⟩] ∧
    ¬(∀ f ∈ [(⟨s2l ("h"), 1, s2l ("p\tq")⟩ : RFile)],
        ∀ c ∈ f.path, isWhite c = false) := by
  exact ⟨by decide, by decide⟩

/-- C7 (amended): for a stanza that holds the field, `stanza_files`
succeeds exactly when every trimmed non-empty line splits on ASCII
*spaces* into exactly three tokens with the middle one a base-10 `u64`,
and every returned File has a path containing no space character. -/
theorem stanza_files_success_iff (k : List Char) (s : Stanza)
    (vs : List (List Char)) (h : alLookup k s = some vs) :
    ((stanza_files k s).isSome = true ↔
      ∀ l ∈ (vs.map trim).filter (fun l => 0 < l.length),
        goodFileLine l = true) ∧
    (∀ fs, stanza_files k s = some fs → ∀ f ∈ fs, ' ' ∉ f.path) := by
  have hlines : stanza_lines k s true =
      some ((vs.map trim).filter (fun l => 0 < l.length)) := by
    rw [stanza_lines, h]
    rfl
  constructor
  · rw [stanza_files, hlines]
    exact filesFromLines_isSome_iff _
  · intro fs hfs
    rw [stanza_files, hlines] at hfs
    exact filesFromLines_path_no_space _ fs hfs

/-- Witness for the amended C7 at a concrete stanza with one good line. -/
theorem stanza_files_success_iff_witness :
    alLookup (s2l ("Files")) [(s2l ("Files"), [s2l (" h 1 p")])] =
      some [s2l (" h 1 p")] ∧
    (((stanza_files (s2l ("Files")) [(s2l ("Files"), [s2l (" h 1 p")])]).isSome =
        true ↔
      ∀ l ∈ ([s2l (" h 1 p")].map trim).filter (fun l => 0 < l.length),
        goodFileLine l = true) ∧
     (∀ fs, stanza_files (s2l ("Files")) [(s2l ("Files"), [s2l (" h 1 p")])] =
        some fs → ∀ f ∈ fs, ' ' ∉ f.path)) :=
  ⟨by decide,
   stanza_files_success_iff (s2l ("Files")) [(s2l ("Files"), [s2l (" h 1 p")])]
     [s2l (" h 1 p")] (by decide)⟩

/-- Lookup after an insert: the inserted key reads back the new value,
every other key is unaffected. -/
theorem alLookup_alInsert {α : Type} (p k : List Char) (v : α)
    (m : List (List Char × α)) :
    alLookup p (alInsert k v m) = if k = p then some v else alLookup p m := by
  induction m with
  | nil => by_cases hp : k = p <;> simp [alInsert, alLookup, hp]
  | cons q rest ih =>
    by_cases hq : q.1 = k
    · by_cases hp : k = p
      · simp [alInsert, alLookup, hq, hp]
      · have hqp : ¬q.1 = p := fun h => hp (hq.symm.trans h)
        simp [alInsert, alLookup, hq, hp, hqp]
    · by_cases hqp : q.1 = p
      · have hp : ¬k = p := fun h => hq (hqp.trans h.symm)
        have hpk : ¬p = k := fun h => hp h.symm
        simp [alInsert, alLookup, hq, hqp, hp, hpk]
      · simp [alInsert, alLookup, hq, hqp, ih]

/-- After folding the md5sum list into the table, a path is present
exactly when it is an md5sum path or was present already. -/
theorem lookup_md5_fold (md5 : List RFile) (m0 : FMap) (p : List Char) :
    (alLookup p (md5.foldl pfInsertMd5 m0)).isSome = true ↔
      p ∈ md5.map RFile.path ∨ (alLookup p m0).isSome = true := by
  induction md5 generalizing m0 with
  | nil => simp
  | cons f rest ih =>
    rw [List.foldl_cons, ih, List.map_cons, List.mem_cons]
    unfold pfInsertMd5
    rw [alLookup_alInsert]
    by_cases hp : f.path = p
    · simp [hp]
    · have hp2 : ¬p = f.path := fun h => hp h.symm
      simp [hp, hp2]

/-- Folding an augmentation pass over paths that are all present keeps the
fold successful and leaves the domain of the table unchanged. -/
theorem lookup_aug_fold (tag : List Char → FileHash) (l : List RFile) :
    ∀ (m : FMap), (∀ f ∈ l, (alLookup f.path m).isSome = true) →
    ∃ m', l.foldl (pfAugment tag) (some m) = some m' ∧
      ∀ p, (alLookup p m').isSome = (alLookup p m).isSome := by
  induction l with
  | nil => exact fun m _ => ⟨m, rfl, fun p => rfl⟩
  | cons f rest ih =>
    intro m h
    have hf := h f (List.mem_cons_self _ _)
    cases hlk : alLookup f.path m with
    | none => rw [hlk] at hf; simp at hf
    | some fm =>
      have hstep : pfAugment tag (some m) f =
          some (alInsert f.path ⟨fm.path, fm.size, fm.hashes ++ [tag f.hash]⟩ m) := by
        simp only [pfAugment, Option.some_bind, hlk]
      have hdom : ∀ p,
          (alLookup p (alInsert f.path
            ⟨fm.path, fm.size, fm.hashes ++ [tag f.hash]⟩ m)).isSome =
          (alLookup p m).isSome := by
        intro p
        rw [alLookup_alInsert]
        by_cases hp : f.path = p
        · rw [if_pos hp, ← hp, hlk]
          rfl
        · rw [if_neg hp]
      have hrest : ∀ g ∈ rest,
          (alLookup g.path (alInsert f.path
            ⟨fm.path, fm.size, fm.hashes ++ [tag f.hash]⟩ m)).isSome = true := by
        intro g hg
        rw [hdom g.path]
        exact h g (List.mem_cons_of_mem _ hg)
      obtain ⟨m', hm', hall⟩ := ih _ hrest
      refine ⟨m', ?_, fun p => (hall p).trans (hdom p)⟩
      rw [List.foldl_cons, hstep]
      exact hm'

/-- C8 counterexample: a file path present under SHA1 but absent from the
md5sum list makes `process_files` panic (the `get_mut(..).unwrap()` on a
missing entry), instead of being silently ignored. -/
theorem process_files_panics_on_unknown_path :
    processFiles [] [⟨s2l ("h"), 1, s2l ("p")⟩] [] = none := by
  decide

/-- C8 (amended): whenever every sha1 and sha256 path also appears in the
md5sum list, building the file table terminates normally, and the
resulting map is keyed exactly by the md5sum paths; a sha1/sha256 path
missing from md5sum instead panics the build. -/
theorem process_files_keys_are_md5_paths (md5 sha1 sha256 : List RFile)
    (h1 : ∀ f ∈ sha1, f.path ∈ md5.map RFile.path)
    (h2 : ∀ f ∈ sha256, f.path ∈ md5.map RFile.path) :
    ∃ m, processFiles md5 sha1 sha256 = some m ∧
      ∀ p, (alLookup p m).isSome = true ↔ p ∈ md5.map RFile.path := by
  have hbase : ∀ p,
      (alLookup p (md5.foldl pfInsertMd5 [])).isSome = true ↔
        p ∈ md5.map RFile.path := by
    intro p
    rw [lookup_md5_fold]
    simp [alLookup]
  obtain ⟨m2, hm2, hd2⟩ := lookup_aug_fold FileHash.sha1 sha1
    (md5.foldl pfInsertMd5 [])
    (fun f hf => (hbase f.path).mpr (h1 f hf))
  obtain ⟨m3, hm3, hd3⟩ := lookup_aug_fold FileHash.sha256 sha256 m2
    (fun f hf => by rw [hd2]; exact (hbase f.path).mpr (h2 f hf))
  refine ⟨m3, ?_, fun p => by rw [hd3, hd2]; exact hbase p⟩
  rw [processFiles, hm2]
  exact hm3

/-- Witness for the amended C8 at concrete lists whose sha1 path appears
under md5sum. -/
theorem process_files_keys_are_md5_paths_witness :
    (∀ f ∈ [(⟨s2l ("y"), 1, s2l ("p")⟩ : RFile)],
      RFile.path f ∈ [(⟨s2l ("x"), 1, s2l ("p")⟩ : RFile)].map RFile.path) ∧
    (∀ f ∈ ([] : List RFile),
      RFile.path f ∈ [(⟨s2l ("x"), 1, s2l ("p")⟩ : RFile)].map RFile.path) ∧
    ∃ m, processFiles [⟨s2l ("x"), 1, s2l ("p")⟩] [⟨s2l ("y"), 1, s2l ("p")⟩] [] =
        some m ∧
      ∀ p, (alLookup p m).isSome = true ↔
        p ∈ [(⟨s2l ("x"), 1, s2l ("p")⟩ : RFile)].map RFile.path :=
  ⟨by decide, by decide,
   process_files_keys_are_md5_paths [⟨s2l ("x"), 1, s2l ("p")⟩]
     [⟨s2l ("y"), 1, s2l ("p")⟩] [] (by decide) (by decide)⟩
